import Mathlib

/-!
Verification development for the `ec2-worker` SQS command worker
(`src/index.ts`, main variant with response queue).

The worker's pure logic is shallowly embedded here:

* JavaScript strings are Lean `String`s; the character-level work is done on
  `List Char` (`String.data`).  JS `trim()` / `split(/\s+/)` / `split("/")`
  are modelled by `trimL`, `jsSplitWsL`, `splitChar` with JS semantics
  (ASCII whitespace; `split` keeps empty pieces, `"".split` gives `[""]`).
* `JSON.parse` is an oracle: `parseMessage` takes the decode outcome
  (`Option JsonTop`) alongside the raw body.  `none` means the parse threw;
  `JsonTop.jnull` models a JSON `null` payload, on which the subsequent
  property access throws inside the same `try`, landing in the catch-block
  fallback; `JsonTop.jother` covers numbers, booleans, arrays and objects
  whose property access merely yields `undefined`.
* Effects (spawning, publishing a response, deleting the queue message) are
  collected in order in a `List Effect`; the single process execution per
  message is resolved by a `SpawnOutcome` oracle, and queue configuration /
  lookup success by `SqsEnv`.
* JS truthiness on strings (only `""` is falsy) is modelled by `jsOrS`;
  optional message fields that the code only ever tests for truthiness
  (receipt handle, correlation attribute, message id) are plain strings with
  `""` standing for an absent value.
-/

/-- JS `a || b` on strings: `""` is the only falsy string. -/
def jsOrS (a b : String) : String :=
  if a = "" then b else a

/-- JS `s.split(/\s+/)` on a character list: separators are maximal runs of
whitespace; empty pieces are kept at the ends (`"".split(/\s+/) = [""]`,
`" a ".split(/\s+/) = ["", "a", ""]`). -/
def jsSplitWsL : List Char → List (List Char)
  | [] => [[]]
  | c :: cs =>
    if c.isWhitespace then
      match cs with
      | [] => [[], []]
      | d :: cs' =>
        if d.isWhitespace then jsSplitWsL (d :: cs')
        else [] :: jsSplitWsL (d :: cs')
    else
      match jsSplitWsL cs with
      | t :: ts => (c :: t) :: ts
      | [] => [[c]]

/-- JS `s.trim()` on a character list: drop whitespace from both ends. -/
def trimL (l : List Char) : List Char :=
  List.rdropWhile Char.isWhitespace (l.dropWhile Char.isWhitespace)

/-- JS `s.trim()`. -/
def jsTrim (s : String) : String :=
  String.mk (trimL s.data)

/-- JS `s.split(/\s+/)`. -/
def jsWsSplit (s : String) : List String :=
  (jsSplitWsL s.data).map String.mk

/-- JS `s.split(sep)` for a single-character separator: all empty pieces are
kept (`"".split("/") = [""]`, `"a//".split("/") = ["a", "", ""]`). -/
def splitChar (sep : Char) : List Char → List (List Char)
  | [] => [[]]
  | c :: cs =>
    if c = sep then [] :: splitChar sep cs
    else (splitChar sep cs).modifyHead (c :: ·)

/-- JS `s.split("/")`. -/
def splitSlash (s : String) : List String :=
  (splitChar '/' s.data).map String.mk

/-- Whether `pat` is a prefix of `l` (plain Bool recursion). -/
def leadsWith : List Char → List Char → Bool
  | [], _ => true
  | _ :: _, [] => false
  | p :: ps, c :: cs => p = c && leadsWith ps cs

/-- The literal `command=` searched for by the legacy-format regex. -/
def cmdEqPat : List Char := "command=".data

/-- The regex match `body.match(/command=([^\]]+)/)`, returning the capture
group: the scan finds the leftmost position where the literal `command=` is
followed by at least one non-`]` character, and captures the maximal run of
non-`]` characters after the literal.  A position where `command=` is
followed directly by `]` (empty capture) does not match and the scan
continues to the right. -/
def matchCommandEqL : List Char → Option (List Char)
  | [] => none
  | c :: cs =>
    if leadsWith cmdEqPat (c :: cs) then
      if (((c :: cs).drop cmdEqPat.length).takeWhile (fun x => x != ']')).isEmpty then
        matchCommandEqL cs
      else
        some (((c :: cs).drop cmdEqPat.length).takeWhile (fun x => x != ']'))
    else matchCommandEqL cs

/-- String-level wrapper for the `command=` regex match. -/
def matchCommandEq (body : String) : Option String :=
  (matchCommandEqL body.data).map String.mk

/-- JS `s.replace(/\]$/, '')`: remove a single trailing `]` if present. -/
def stripTrailingRBracket (s : String) : String :=
  match s.data.getLast? with
  | some c => if c = ']' then String.mk s.data.dropLast else s
  | none => s

/-- The normalized command descriptor (`CommandMessage` in `src/index.ts`):
`{ command: string, args?: string[], cwd?: string }`. -/
structure CommandMessage where
  command : String
  args : Option (List String)
  cwd : Option String
deriving Repr, DecidableEq

/-- Abstraction of the value produced by `JSON.parse(body)` when it does not
throw, keeping exactly the distinctions the worker code inspects:
a string payload; an object payload with an optional string `command` field
(`command = none` covers both an absent field and a non-string one — the
code treats them alike), an optional string-array `args` field and an
optional string `cwd` field; the `null` payload (property access on it
throws, landing in the catch-block fallback); and anything else (numbers,
booleans, arrays: property access yields `undefined`). -/
inductive JsonTop where
  | jstring (s : String)
  | jobject (command : Option String) (args : Option (List String)) (cwd : Option String)
  | jnull
  | jother
deriving Repr, DecidableEq

/-- The result record returned by `executeCommand`:
`{ success: boolean, output: string, error?: string, exitCode: number }`. -/
structure ExecResult where
  success : Bool
  output : String
  error : Option String
  exitCode : Int
deriving Repr, DecidableEq

/-- The JSON body of a response message:
`{ correlationId, success, stdout, stderr, exitCode }` (lines 154-160). -/
structure ResponseBody where
  correlationId : String
  success : Bool
  stdout : String
  stderr : String
  exitCode : Int
deriving Repr, DecidableEq

/-- Oracle for the one process execution a message can trigger: either the
process ran to completion with an exit code and captured stdout/stderr, or
`Bun.spawn` threw (binary not found, permission denied, bad cwd) with the
given error message. -/
inductive SpawnOutcome where
  | completed (exitCode : Int) (stdout stderr : String)
  | spawnError (message : String)
deriving Repr, DecidableEq

/-- Observable side effects of processing one message, in program order.
`spawn` records the argument vector passed to `Bun.spawn` (the attempt is
recorded even when the spawn itself throws); `publish` records a
`SendMessageCommand` to the response queue; `deleteMessage` records a
`DeleteMessageCommand` acknowledging the input message. -/
inductive Effect where
  | spawn (program : String) (args : List String) (cwd : Option String)
  | publish (body : ResponseBody)
  | deleteMessage (receiptHandle : String)
deriving Repr, DecidableEq

/-- Bool test used to count acknowledgments in a trace. -/
def isAckEffect : Effect → Bool
  | Effect.deleteMessage _ => true
  | _ => false

/-- Bool test for spawn effects in a trace. -/
def isSpawnEffect : Effect → Bool
  | Effect.spawn _ _ _ => true
  | _ => false

/-- A received SQS message as `processMessage` reads it.  Fields the code
only tests for truthiness are plain strings, `""` meaning absent. -/
structure SqsMessage where
  body : String
  receiptHandle : String
  correlationAttr : String
  messageId : String
deriving Repr, DecidableEq

/-- Worker configuration and queue-service behaviour relevant to publishing:
the `RESPONSE_QUEUE_NAME` env var (`""` when unset), the `SQS_QUEUE_URL`
env var, and whether the `GetQueueUrl` lookup for the response queue
succeeds and yields a URL (when it fails or throws, `sendResponse` logs and
returns without sending). -/
structure SqsEnv where
  responseQueueNameEnv : String
  queueUrl : String
  queueUrlLookupOk : Bool
deriving Repr, DecidableEq

/-- The fixed allowlist (`ALLOWLIST` set, lines 29-42). -/
def ALLOWLIST : List String :=
  ["ls", "grep", "git", "cat", "echo", "pwd", "whoami", "date", "uname", "npm", "npx", "bun"]

/-- `isCommandAllowed` (lines 56-69): split on `/`, take the last path part
(falling back to the whole command when that part is the empty string, via
JS `||`), trim it, split on whitespace, take the first token, and test
allowlist membership. -/
def isCommandAllowed (command : String) : Bool :=
  let pathParts := splitSlash command
  let lastPart := jsOrS (pathParts.getLastD "") command
  let baseCommand := (jsWsSplit (jsTrim lastPart)).headD ""
  ALLOWLIST.contains baseCommand

/-- The `parsed.trim().split(/\s+/)` tokenization used for string payloads
and for the whole-body fallback: first piece is `command`, the rest `args`. -/
def strTokenize (s : String) : CommandMessage :=
  let parts := jsWsSplit (jsTrim s)
  { command := parts.headD "", args := some parts.tail, cwd := none }

/-- The catch-block of `parseMessage` (lines 103-127): when `JSON.parse`
threw, a non-blank body is tried against the `command=...]` legacy pattern
and otherwise tokenized whole; a blank body yields `none`. -/
def parseFallback (body : String) : Option CommandMessage :=
  if (jsTrim body).length > 0 then
    match matchCommandEq body with
    | some cap =>
      let commandString := stripTrailingRBracket (jsTrim cap)
      let parts := jsWsSplit commandString
      some { command := parts.headD "", args := some parts.tail, cwd := none }
    | none => some (strTokenize body)
  else none

/-- `parseMessage` (lines 74-128) as a function of the `JSON.parse` outcome
and the raw body.  String payloads are tokenized; object payloads need a
truthy string `command` field (so a present-but-empty `command` is rejected)
and default `args` to `[]` via `parsed.args || []`; a `null` payload and a
failed decode both reach the catch-block fallback; everything else fails. -/
def parseMessage (decoded : Option JsonTop) (body : String) : Option CommandMessage :=
  match decoded with
  | some (JsonTop.jstring s) => some (strTokenize s)
  | some (JsonTop.jobject cmdField argsField cwdField) =>
    match cmdField with
    | some c => if c ≠ "" then
        some { command := c, args := some (argsField.getD []), cwd := cwdField }
      else none
    | none => none
  | some JsonTop.jnull => parseFallback body
  | some JsonTop.jother => none
  | none => parseFallback body

/-- The regex `QUEUE_URL.match(/\/[^\/]+$/)` of `getResponseQueueName`:
the final path segment of the URL, requiring a `/` followed by at least one
non-`/` character at the end. -/
def lastUrlSegment (url : String) : Option String :=
  let parts := splitChar '/' url.data
  if parts.length ≥ 2 ∧ parts.getLastD [] ≠ [] then
    some (String.mk (parts.getLastD []))
  else none

/-- `getResponseQueueName` (lines 12-26): explicit env override, else the
input queue URL's last path segment with `-responses` appended, else `""`. -/
def getResponseQueueName (env : SqsEnv) : String :=
  if env.responseQueueNameEnv ≠ "" then env.responseQueueNameEnv
  else
    match lastUrlSegment env.queueUrl with
    | some seg => seg ++ "-responses"
    | none => ""

/-- The response body built by `sendResponse` (lines 154-160):
`stdout` is the result's `output`, `stderr` is `result.error || ""`. -/
def encodeResponse (correlationId : String) (result : ExecResult) : ResponseBody :=
  { correlationId := correlationId
    success := result.success
    stdout := result.output
    stderr := result.error.getD ""
    exitCode := result.exitCode }

/-- `sendResponse` (lines 134-179): a no-op when no response queue name is
configured or the queue-URL lookup fails (both merely logged); otherwise it
attempts one `SendMessageCommand` with the encoded body.  A failure of the
send itself is caught and logged, so the trace records the attempt. -/
def sendResponse (env : SqsEnv) (correlationId : String) (result : ExecResult) : List Effect :=
  if getResponseQueueName env = "" then []
  else if env.queueUrlLookupOk = false then []
  else [Effect.publish (encodeResponse correlationId result)]

/-- `executeCommand` (lines 184-222): the command string is re-tokenized on
whitespace; the first token becomes the spawned program, and the remaining
tokens become the argument vector only when `cmd.args` is absent (JS
`!cmd.args`; note the worker's parser always supplies `args`, possibly
`[]`).  A completed process yields `success` iff its exit code is zero with
`error` set to the captured stderr when non-empty (`stderr || undefined`);
a throwing spawn is caught and converted to
`{success: false, output: "", error: message, exitCode: 1}`. -/
def executeCommand (cmd : CommandMessage) (outcome : SpawnOutcome) : ExecResult × List Effect :=
  let parts := jsWsSplit (jsTrim cmd.command)
  let program := parts.headD ""
  let args :=
    match cmd.args with
    | some a => a
    | none => parts.tail
  match outcome with
  | SpawnOutcome.completed code out err =>
    ({ success := code == 0
       output := out
       error := if err = "" then none else some err
       exitCode := code },
     [Effect.spawn program args cmd.cwd])
  | SpawnOutcome.spawnError m =>
    ({ success := false, output := "", error := some m, exitCode := 1 },
     [Effect.spawn program args cmd.cwd])

/-- `processMessage` (lines 227-302) as the ordered effect trace of handling
one received message.  Parse failure: log and stop (no effects).  Allowlist
rejection: error response when a correlation id exists, then delete.
Allowed: execute, respond when a correlation id exists, then delete.  The
correlation id is `MessageAttributes.CorrelationId.StringValue ||
MessageId || ""`; the delete only happens for a truthy receipt handle. -/
def processMessage (env : SqsEnv) (decoded : Option JsonTop) (msg : SqsMessage)
    (outcome : SpawnOutcome) : List Effect :=
  let correlationId := jsOrS msg.correlationAttr (jsOrS msg.messageId "")
  match parseMessage decoded msg.body with
  | none => []
  | some cmd =>
    if isCommandAllowed cmd.command = false then
      (if correlationId ≠ "" then
        sendResponse env correlationId
          { success := false
            output := ""
            error := some ("Command \"" ++ cmd.command ++ "\" is not in the allowlist")
            exitCode := 1 }
      else [])
      ++ (if msg.receiptHandle ≠ "" then [Effect.deleteMessage msg.receiptHandle] else [])
    else
      let r := executeCommand cmd outcome
      r.2
      ++ (if correlationId ≠ "" then sendResponse env correlationId r.1 else [])
      ++ (if msg.receiptHandle ≠ "" then [Effect.deleteMessage msg.receiptHandle] else [])

/-! ### Specification-side definitions

These follow the spec's words (not the source) and are compared with the
source-derived definitions above in refinement theorems. -/

/-- Spec-side tokenizer: the whitespace-separated tokens of a string are the
maximal runs of non-whitespace characters — split at every whitespace
character and drop the empty pieces. -/
def wsTokens (l : List Char) : List (List Char) :=
  (l.splitOnP Char.isWhitespace).filter (fun t => !t.isEmpty)

/-- Spec-side descriptor for "tokenized on whitespace; the first token is
`command`, the remainder is `args`". -/
def specTokenizeCmd (l : List Char) : CommandMessage :=
  { command := String.mk ((wsTokens l).headD [])
    args := some ((wsTokens l).tail.map String.mk)
    cwd := none }

/-- C2's allowlist formula exactly as claimed: membership of the first
whitespace-separated token of the last `/`-separated segment. -/
def specIsAllowedClaim (command : String) : Bool :=
  let seg := (splitChar '/' command.data).getLastD []
  ALLOWLIST.contains (String.mk ((wsTokens seg).headD []))

/-- C2's allowlist formula amended: when the last `/`-separated segment is
empty (the command ends in `/`), the whole command string is tokenized
instead of the empty segment. -/
def specIsAllowedAmended (command : String) : Bool :=
  let seg := (splitChar '/' command.data).getLastD []
  let base := if seg.isEmpty then (wsTokens command.data).headD []
              else (wsTokens seg).headD []
  ALLOWLIST.contains (String.mk base)

/-- C5's capture exactly as claimed: at the first occurrence of the literal
`command=`, the text after it up to but excluding a `]`. -/
def specCaptureClaim : List Char → Option (List Char)
  | [] => none
  | c :: cs =>
    if leadsWith cmdEqPat (c :: cs) then
      some (((c :: cs).drop cmdEqPat.length).takeWhile (fun x => x != ']'))
    else specCaptureClaim cs

/-- C5's capture amended: the first occurrence of `command=` that is
followed by at least one non-`]` character; the capture is the (non-empty)
text after it up to but excluding the first `]`. -/
def specCaptureAmended : List Char → Option (List Char)
  | [] => none
  | c :: cs =>
    if leadsWith cmdEqPat (c :: cs) &&
        !(((c :: cs).drop cmdEqPat.length).takeWhile (fun x => x != ']')).isEmpty then
      some (((c :: cs).drop cmdEqPat.length).takeWhile (fun x => x != ']'))
    else specCaptureAmended cs

/-- C5's fallback parse exactly as claimed: blank bodies fail; a body
containing `command=` is parsed from the claimed capture; otherwise the
whole body is tokenized. -/
def specParseFallbackClaim (body : String) : Option CommandMessage :=
  if body.data.all Char.isWhitespace then none
  else
    match specCaptureClaim body.data with
    | some cap => some (specTokenizeCmd cap)
    | none => some (specTokenizeCmd body.data)

/-- C5's fallback parse amended: as claimed, but a `command=` occurrence
only counts when followed by at least one non-`]` character. -/
def specParseFallbackAmended (body : String) : Option CommandMessage :=
  if body.data.all Char.isWhitespace then none
  else
    match specCaptureAmended body.data with
    | some cap => some (specTokenizeCmd cap)
    | none => some (specTokenizeCmd body.data)

/-- Modelled from the spec: the hypothetical consumer of §8's round-trip
property, absent from the source.  It reads the response body's wire fields
back into an `ExecResult`, interpreting an empty `stderr` as an absent one
(mirroring the worker's own `stderr || undefined` convention). -/
def decodeResponse (b : ResponseBody) : ExecResult :=
  { success := b.success
    output := b.stdout
    error := if b.stderr = "" then none else some b.stderr
    exitCode := b.exitCode }

/-! ### Helper lemmas: tokenization bridge

These relate the JS-faithful splitter `jsSplitWsL` (which keeps empty edge
pieces and is applied after `trim()` in the source) to the spec-side
tokenizer `wsTokens` (maximal non-whitespace runs). -/

theorem jsSplitWsL_nil : jsSplitWsL [] = [[]] := rfl

theorem jsSplitWsL_ne_nil (l : List Char) : jsSplitWsL l ≠ [] := by
  induction l with
  | nil => simp [jsSplitWsL]
  | cons c cs ih =>
    rw [jsSplitWsL.eq_def]
    by_cases hc : c.isWhitespace
    · cases cs with
      | nil => simp [hc]
      | cons d cs' =>
        by_cases hd : d.isWhitespace
        · simpa [hc, hd] using ih
        · simp [hc, hd]
    · cases he : jsSplitWsL cs with
      | nil => exact absurd he ih
      | cons t ts => simp [hc, he]

theorem jsSplitWsL_ws_nil {c : Char} (hc : c.isWhitespace = true) :
    jsSplitWsL [c] = [[], []] := by
  rw [jsSplitWsL.eq_def]
  simp [hc]

theorem jsSplitWsL_ws_ws {c d : Char} (hc : c.isWhitespace = true)
    (hd : d.isWhitespace = true) (cs : List Char) :
    jsSplitWsL (c :: d :: cs) = jsSplitWsL (d :: cs) := by
  rw [jsSplitWsL.eq_def]
  simp [hc, hd]

theorem jsSplitWsL_ws_not_ws {c d : Char} (hc : c.isWhitespace = true)
    (hd : d.isWhitespace = false) (cs : List Char) :
    jsSplitWsL (c :: d :: cs) = [] :: jsSplitWsL (d :: cs) := by
  rw [jsSplitWsL.eq_def]
  simp [hc, hd]

theorem jsSplitWsL_not_ws {c : Char} (hc : c.isWhitespace = false) (cs : List Char) :
    jsSplitWsL (c :: cs) = (jsSplitWsL cs).modifyHead (c :: ·) := by
  cases he : jsSplitWsL cs with
  | nil => exact absurd he (jsSplitWsL_ne_nil cs)
  | cons t ts =>
    rw [jsSplitWsL.eq_def]
    simp [hc, he]

theorem dropWhile_head_false {α : Type} {p : α → Bool} {l : List α} {x : α} {xs : List α}
    (h : l.dropWhile p = x :: xs) : p x = false := by
  induction l with
  | nil => simp [List.dropWhile] at h
  | cons a as ih =>
    rw [List.dropWhile_cons] at h
    by_cases hp : p a
    · rw [if_pos hp] at h
      exact ih h
    · rw [if_neg hp] at h
      have h1 : a = x := (List.cons.injEq a as x xs).mp h |>.1
      rw [← h1]
      simpa using hp

theorem headD_jsSplitWsL (l : List Char) :
    (jsSplitWsL l).headD [] = l.takeWhile (fun c => !c.isWhitespace) := by
  induction l with
  | nil => simp [jsSplitWsL]
  | cons c cs ih =>
    by_cases hc : c.isWhitespace
    · have hc' : c.isWhitespace = true := by simpa using hc
      cases cs with
      | nil => simp [jsSplitWsL_ws_nil hc', List.takeWhile_cons, hc']
      | cons d cs' =>
        by_cases hd : d.isWhitespace
        · have hd' : d.isWhitespace = true := by simpa using hd
          rw [jsSplitWsL_ws_ws hc' hd' cs']
          rw [ih]
          simp [List.takeWhile_cons, hc', hd']
        · have hd' : d.isWhitespace = false := by simpa using hd
          rw [jsSplitWsL_ws_not_ws hc' hd' cs']
          simp [List.takeWhile_cons, hc']
    · have hc' : c.isWhitespace = false := by simpa using hc
      rw [jsSplitWsL_not_ws hc' cs]
      cases he : jsSplitWsL cs with
      | nil => exact absurd he (jsSplitWsL_ne_nil cs)
      | cons t ts =>
        rw [he] at ih
        simp only [List.headD_cons] at ih
        simp [List.takeWhile_cons, hc', ← ih]

theorem splitOnP_headD (l : List Char) :
    (l.splitOnP Char.isWhitespace).headD [] = l.takeWhile (fun c => !c.isWhitespace) := by
  induction l with
  | nil => simp
  | cons c cs ih =>
    by_cases hc : c.isWhitespace
    · simp [List.splitOnP_cons, hc, List.takeWhile_cons]
    · have hc' : c.isWhitespace = false := by simpa using hc
      cases he : cs.splitOnP Char.isWhitespace with
      | nil => exact absurd he (List.splitOnP_ne_nil _ cs)
      | cons u us =>
        rw [he] at ih
        simp only [List.headD_cons] at ih
        simp [List.splitOnP_cons, hc', he, List.takeWhile_cons, ← ih]

theorem wsTokens_nil : wsTokens [] = [] := by
  simp [wsTokens]

theorem wsTokens_cons_ws {c : Char} (hc : c.isWhitespace = true) (cs : List Char) :
    wsTokens (c :: cs) = wsTokens cs := by
  simp [wsTokens, List.splitOnP_cons, hc]

/-- Decomposition of `splitOnP` into the first `takeWhile` block and the rest. -/
theorem splitOnP_decomp (l : List Char) :
    l.splitOnP Char.isWhitespace =
      l.takeWhile (fun c => !c.isWhitespace) ::
        (match l.dropWhile (fun c => !c.isWhitespace) with
          | [] => []
          | _ :: r => r.splitOnP Char.isWhitespace) := by
  induction l with
  | nil => simp
  | cons c cs ih =>
    by_cases hc : c.isWhitespace
    · simp [List.splitOnP_cons, hc, List.takeWhile_cons, List.dropWhile_cons]
    · have hc' : c.isWhitespace = false := by simpa using hc
      rw [List.splitOnP_cons]
      simp only [hc', Bool.false_eq_true, if_false, ih, List.modifyHead_cons,
        List.takeWhile_cons, List.dropWhile_cons, Bool.not_false, if_true]

theorem wsTokens_cons_not_ws {c : Char} (hc : c.isWhitespace = false) (cs : List Char) :
    wsTokens (c :: cs) =
      (c :: cs.takeWhile (fun x => !x.isWhitespace)) ::
        wsTokens (cs.dropWhile (fun x => !x.isWhitespace)) := by
  show ((c :: cs).splitOnP Char.isWhitespace).filter (fun t => !t.isEmpty) = _
  rw [List.splitOnP_cons]
  simp only [hc, Bool.false_eq_true, if_false]
  rw [splitOnP_decomp cs]
  rw [List.modifyHead_cons]
  rw [List.filter_cons]
  simp only [List.isEmpty_cons, Bool.not_false, if_true]
  congr 1
  cases he : cs.dropWhile (fun x => !x.isWhitespace) with
  | nil => simp [wsTokens_nil]
  | cons w r =>
    have hw : w.isWhitespace = true := by
      have := dropWhile_head_false he
      simpa using this
    exact (wsTokens_cons_ws hw r).symm

theorem filter_jsSplitWsL_both (l : List Char) :
    (jsSplitWsL l).filter (fun t => !t.isEmpty) = wsTokens l ∧
      ((jsSplitWsL l).tail).filter (fun t => !t.isEmpty) =
        wsTokens (l.dropWhile (fun x => !x.isWhitespace)) := by
  induction l with
  | nil => simp [jsSplitWsL, wsTokens_nil]
  | cons c cs ih =>
    by_cases hc : c.isWhitespace
    · have hc' : c.isWhitespace = true := by simpa using hc
      have hdrop : (c :: cs).dropWhile (fun x => !x.isWhitespace) = c :: cs := by
        rw [List.dropWhile_cons]
        simp [hc']
      cases cs with
      | nil =>
        constructor
        · simp [jsSplitWsL_ws_nil hc', wsTokens_cons_ws hc', wsTokens_nil]
        · rw [hdrop]
          simp [jsSplitWsL_ws_nil hc', wsTokens_cons_ws hc', wsTokens_nil]
      | cons d cs' =>
        by_cases hd : d.isWhitespace
        · have hd' : d.isWhitespace = true := by simpa using hd
          have hdrop' : (d :: cs').dropWhile (fun x => !x.isWhitespace) = d :: cs' := by
            rw [List.dropWhile_cons]
            simp [hd']
          constructor
          · rw [jsSplitWsL_ws_ws hc' hd' cs', wsTokens_cons_ws hc']
            exact ih.1
          · rw [jsSplitWsL_ws_ws hc' hd' cs', hdrop, wsTokens_cons_ws hc']
            rw [hdrop'] at ih
            exact ih.2
        · have hd' : d.isWhitespace = false := by simpa using hd
          constructor
          · rw [jsSplitWsL_ws_not_ws hc' hd' cs', wsTokens_cons_ws hc']
            rw [List.filter_cons]
            simpa using ih.1
          · rw [jsSplitWsL_ws_not_ws hc' hd' cs', hdrop, wsTokens_cons_ws hc']
            simpa using ih.1
    · have hc' : c.isWhitespace = false := by simpa using hc
      have hdrop : (c :: cs).dropWhile (fun x => !x.isWhitespace) =
          cs.dropWhile (fun x => !x.isWhitespace) := by
        rw [List.dropWhile_cons]
        simp [hc']
      cases he : jsSplitWsL cs with
      | nil => exact absurd he (jsSplitWsL_ne_nil cs)
      | cons t ts =>
        have ht : t = cs.takeWhile (fun x => !x.isWhitespace) := by
          have := headD_jsSplitWsL cs
          rw [he] at this
          simpa using this
        have hsplit : jsSplitWsL (c :: cs) = (c :: t) :: ts := by
          rw [jsSplitWsL_not_ws hc' cs, he, List.modifyHead_cons]
        have htail : ts.filter (fun t => !t.isEmpty) =
            wsTokens (cs.dropWhile (fun x => !x.isWhitespace)) := by
          have := ih.2
          rw [he] at this
          simpa using this
        constructor
        · rw [hsplit, wsTokens_cons_not_ws hc' cs, List.filter_cons]
          simp only [List.isEmpty_cons, Bool.not_false, if_true]
          rw [htail, ht]
        · rw [hsplit, hdrop]
          simpa using htail

theorem filter_jsSplitWsL (l : List Char) :
    (jsSplitWsL l).filter (fun t => !t.isEmpty) = wsTokens l :=
  (filter_jsSplitWsL_both l).1

theorem wsTokens_eq_nil_iff (l : List Char) :
    wsTokens l = [] ↔ ∀ c ∈ l, c.isWhitespace := by
  induction l with
  | nil => simp [wsTokens_nil]
  | cons c cs ih =>
    by_cases hc : c.isWhitespace
    · have hc' : c.isWhitespace = true := by simpa using hc
      rw [wsTokens_cons_ws hc']
      simp [hc', ih]
    · have hc' : c.isWhitespace = false := by simpa using hc
      rw [wsTokens_cons_not_ws hc' cs]
      simp [hc']

theorem wsTokens_dropWhile_ws (l : List Char) :
    wsTokens (l.dropWhile Char.isWhitespace) = wsTokens l := by
  induction l with
  | nil => simp
  | cons c cs ih =>
    by_cases hc : c.isWhitespace
    · have hc' : c.isWhitespace = true := by simpa using hc
      rw [List.dropWhile_cons, if_pos (by simpa using hc'), wsTokens_cons_ws hc']
      exact ih
    · rw [List.dropWhile_cons, if_neg (by simpa using hc)]

theorem takeWhile_notWs_of_allws {b : List Char} (hb : ∀ c ∈ b, c.isWhitespace) :
    b.takeWhile (fun x => !x.isWhitespace) = [] := by
  cases b with
  | nil => rfl
  | cons e es =>
    rw [List.takeWhile_cons, if_neg]
    simp [hb e (List.mem_cons_self e es)]

theorem dropWhile_notWs_of_allws {b : List Char} (hb : ∀ c ∈ b, c.isWhitespace) :
    b.dropWhile (fun x => !x.isWhitespace) = b := by
  cases b with
  | nil => rfl
  | cons e es =>
    rw [List.dropWhile_cons, if_neg]
    simp [hb e (List.mem_cons_self e es)]

theorem wsTokens_append_allws_aux (n : ℕ) :
    ∀ (a b : List Char), a.length ≤ n → (∀ c ∈ b, c.isWhitespace) →
      wsTokens (a ++ b) = wsTokens a := by
  induction n with
  | zero =>
    intro a b ha hb
    have : a = [] := List.length_eq_zero.mp (Nat.le_zero.mp ha)
    subst this
    simp only [List.nil_append]
    rw [wsTokens_nil]
    exact (wsTokens_eq_nil_iff b).mpr hb
  | succ n ih =>
    intro a b ha hb
    cases a with
    | nil =>
      simp only [List.nil_append]
      rw [wsTokens_nil]
      exact (wsTokens_eq_nil_iff b).mpr hb
    | cons c a' =>
      by_cases hc : c.isWhitespace
      · have hc' : c.isWhitespace = true := by simpa using hc
        rw [List.cons_append, wsTokens_cons_ws hc', wsTokens_cons_ws hc']
        exact ih a' b (by simpa using Nat.le_of_succ_le_succ (by simpa using ha)) hb
      · have hc' : c.isWhitespace = false := by simpa using hc
        have ha' : a'.length ≤ n := by
          simpa using Nat.le_of_succ_le_succ (by simpa using ha)
        rw [List.cons_append, wsTokens_cons_not_ws hc', wsTokens_cons_not_ws hc']
        cases hdw : a'.dropWhile (fun x => !x.isWhitespace) with
        | nil =>
          have hall : ∀ x ∈ a', (fun x => !x.isWhitespace) x = true :=
            List.dropWhile_eq_nil_iff.mp hdw
          have h1 : a'.takeWhile (fun x => !x.isWhitespace) = a' :=
            List.takeWhile_eq_self_iff.mpr hall
          have h2 : wsTokens b = [] := (wsTokens_eq_nil_iff b).mpr hb
          simp only [List.takeWhile_append_of_pos hall, List.dropWhile_append_of_pos hall,
            takeWhile_notWs_of_allws hb, dropWhile_notWs_of_allws hb, h2, h1, hdw,
            wsTokens_nil, List.append_nil]
        | cons w r =>
          have hw : w.isWhitespace = true := by
            have := dropWhile_head_false hdw
            simpa using this
          have hlen : (a'.takeWhile (fun x => !x.isWhitespace)).length ≠ a'.length := by
            intro hEq
            have h2 := List.takeWhile_append_dropWhile (fun x => !x.isWhitespace) a'
            have h3 := congrArg List.length h2
            rw [List.length_append, hEq] at h3
            have h4 : (a'.dropWhile (fun x => !x.isWhitespace)).length = 0 := by omega
            rw [hdw] at h4
            simp at h4
          rw [List.takeWhile_append, if_neg hlen]
          have hdwne : (a'.dropWhile (fun x => !x.isWhitespace)).isEmpty = false := by
            rw [hdw]; rfl
          rw [List.dropWhile_append, if_neg (by simp [hdwne])]
          rw [hdw]
          congr 1
          rw [List.cons_append, wsTokens_cons_ws hw, wsTokens_cons_ws hw]
          have hr : r.length ≤ n := by
            have hsuf : a'.dropWhile (fun x => !x.isWhitespace) <:+ a' :=
              List.dropWhile_suffix _
            have h5 : (w :: r).length ≤ a'.length := by
              rw [← hdw]
              exact hsuf.length_le
            simp only [List.length_cons] at h5
            omega
          exact ih r b hr hb

theorem wsTokens_append_allws (a b : List Char) (hb : ∀ c ∈ b, c.isWhitespace) :
    wsTokens (a ++ b) = wsTokens a :=
  wsTokens_append_allws_aux a.length a b le_rfl hb

theorem rdropWhile_append_rtakeWhile {α : Type} (p : α → Bool) (l : List α) :
    l.rdropWhile p ++ l.rtakeWhile p = l := by
  unfold List.rdropWhile List.rtakeWhile
  rw [← List.reverse_append, List.takeWhile_append_dropWhile, List.reverse_reverse]

theorem wsTokens_rdropWhile (l : List Char) :
    wsTokens (List.rdropWhile Char.isWhitespace l) = wsTokens l := by
  have hb : ∀ c ∈ List.rtakeWhile Char.isWhitespace l, c.isWhitespace :=
    fun c hc => List.mem_rtakeWhile_imp hc
  conv_rhs => rw [← rdropWhile_append_rtakeWhile Char.isWhitespace l]
  rw [wsTokens_append_allws _ _ hb]

theorem wsTokens_trimL (l : List Char) : wsTokens (trimL l) = wsTokens l := by
  unfold trimL
  rw [wsTokens_rdropWhile, wsTokens_dropWhile_ws]

theorem trimL_eq_nil_iff (l : List Char) : trimL l = [] ↔ ∀ c ∈ l, c.isWhitespace := by
  unfold trimL
  rw [List.rdropWhile_eq_nil_iff]
  constructor
  · intro h c hc
    rw [← List.takeWhile_append_dropWhile Char.isWhitespace l] at hc
    rcases List.mem_append.mp hc with h1 | h2
    · exact List.mem_takeWhile_imp h1
    · exact h c h2
  · intro h c hc
    exact h c ((List.dropWhile_suffix Char.isWhitespace).subset hc)

theorem trimL_head_not_ws {l : List Char} {x : Char} {xs : List Char}
    (h : trimL l = x :: xs) : x.isWhitespace = false := by
  obtain ⟨t, ht⟩ := List.rdropWhile_prefix Char.isWhitespace (l.dropWhile Char.isWhitespace)
  have ht' : l.dropWhile Char.isWhitespace = x :: (xs ++ t) := by
    rw [← ht]
    have h' : List.rdropWhile Char.isWhitespace (l.dropWhile Char.isWhitespace) = x :: xs := h
    rw [h']
    rfl
  exact dropWhile_head_false ht'

theorem trimL_last_not_ws {l : List Char} {x : Char}
    (h : (trimL l).getLast? = some x) : x.isWhitespace = false := by
  have hne : trimL l ≠ [] := by
    intro hnil
    rw [hnil] at h
    simp at h
  have hlast := List.rdropWhile_last_not Char.isWhitespace (l.dropWhile Char.isWhitespace)
    (by exact hne)
  have hx : x = (trimL l).getLast hne := by
    have h2 := List.getLast?_eq_getLast (trimL l) hne
    rw [h] at h2
    exact Option.some.inj h2
  rw [hx]
  simpa using hlast

theorem jsSplitWsL_pieces_aux (l : List Char)
    (hLast : ∀ x, l.getLast? = some x → x.isWhitespace = false) :
    (∀ q ∈ (jsSplitWsL l).tail, q ≠ []) ∧
      (l ≠ [] → (∀ x, l.head? = some x → x.isWhitespace = false) →
        ∀ q ∈ jsSplitWsL l, q ≠ []) := by
  induction l with
  | nil =>
    constructor
    · simp [jsSplitWsL]
    · intro h
      exact absurd rfl h
  | cons c cs ih =>
    by_cases hc : c.isWhitespace
    · have hc' : c.isWhitespace = true := by simpa using hc
      cases cs with
      | nil =>
        have : c.isWhitespace = false := hLast c (by simp)
        rw [this] at hc'
        exact absurd hc' (by simp)
      | cons d cs' =>
        have hLast' : ∀ x, (d :: cs').getLast? = some x → x.isWhitespace = false := by
          intro x hx
          exact hLast x (by simpa using hx)
        have ih' := ih hLast'
        by_cases hd : d.isWhitespace
        · have hd' : d.isWhitespace = true := by simpa using hd
          constructor
          · rw [jsSplitWsL_ws_ws hc' hd' cs']
            exact ih'.1
          · intro _ hhead
            have := hhead c (by simp)
            rw [this] at hc'
            exact absurd hc' (by simp)
        · have hd' : d.isWhitespace = false := by simpa using hd
          constructor
          · rw [jsSplitWsL_ws_not_ws hc' hd' cs']
            have hall := ih'.2 (by simp)
              (by
                intro x hx
                have hxd : d = x := by simpa using hx
                rw [← hxd]
                exact hd')
            simpa using hall
          · intro _ hhead
            have := hhead c (by simp)
            rw [this] at hc'
            exact absurd hc' (by simp)
    · have hc' : c.isWhitespace = false := by simpa using hc
      cases he : jsSplitWsL cs with
      | nil => exact absurd he (jsSplitWsL_ne_nil cs)
      | cons t ts =>
        have hsplit : jsSplitWsL (c :: cs) = (c :: t) :: ts := by
          rw [jsSplitWsL_not_ws hc' cs, he, List.modifyHead_cons]
        have hts : ∀ q ∈ ts, q ≠ [] := by
          cases cs with
          | nil =>
            have : t :: ts = [[]] := by rw [← he, jsSplitWsL_nil]
            have hts' : ts = [] := (List.cons.injEq t ts [] []).mp this |>.2
            rw [hts']
            simp
          | cons d cs' =>
            have hLast' : ∀ x, (d :: cs').getLast? = some x → x.isWhitespace = false := by
              intro x hx
              exact hLast x (by simpa using hx)
            have := (ih hLast').1
            rw [he] at this
            simpa using this
        constructor
        · rw [hsplit]
          simpa using hts
        · intro _ _
          rw [hsplit]
          intro q hq
          rcases List.mem_cons.mp hq with h1 | h2
          · rw [h1]
            simp
          · exact hts q h2

theorem jsSplitWsL_all_ne_nil (l : List Char) (hne : l ≠ [])
    (hHead : ∀ x, l.head? = some x → x.isWhitespace = false)
    (hLast : ∀ x, l.getLast? = some x → x.isWhitespace = false) :
    ∀ q ∈ jsSplitWsL l, q ≠ [] :=
  (jsSplitWsL_pieces_aux l hLast).2 hne hHead

/-- The key bridge: the source's trim-then-split equals the spec-side
tokenizer, except that a blank input yields the single empty piece. -/
theorem jsSplitWsL_trimL (l : List Char) :
    jsSplitWsL (trimL l) = if trimL l = [] then [[]] else wsTokens l := by
  by_cases h : trimL l = []
  · rw [if_pos h, h, jsSplitWsL_nil]
  · rw [if_neg h]
    have hHead : ∀ x, (trimL l).head? = some x → x.isWhitespace = false := by
      intro x hx
      cases htr : trimL l with
      | nil => exact absurd htr h
      | cons y ys =>
        rw [htr] at hx
        have hxy : y = x := by simpa using hx
        rw [← hxy]
        exact trimL_head_not_ws htr
    have hLast : ∀ x, (trimL l).getLast? = some x → x.isWhitespace = false :=
      fun x hx => trimL_last_not_ws hx
    have hall := jsSplitWsL_all_ne_nil (trimL l) h hHead hLast
    have hfilter : (jsSplitWsL (trimL l)).filter (fun t => !t.isEmpty) =
        jsSplitWsL (trimL l) :=
      List.filter_eq_self.mpr (fun a ha => by simpa using hall a ha)
    rw [← hfilter, filter_jsSplitWsL, wsTokens_trimL]

theorem headD_map_mk (L : List (List Char)) :
    (L.map String.mk).headD "" = String.mk (L.headD []) := by
  cases L <;> rfl

theorem tail_map_mk (L : List (List Char)) :
    (L.map String.mk).tail = L.tail.map String.mk := by
  cases L <;> rfl

/-- The source's string tokenization (`trim` + JS split + first/rest) agrees
exactly with the spec-side tokenization. -/
theorem strTokenize_eq_spec (s : String) : strTokenize s = specTokenizeCmd s.data := by
  unfold strTokenize specTokenizeCmd jsWsSplit jsTrim
  by_cases h : trimL s.data = []
  · rw [show (String.mk (trimL s.data)).data = trimL s.data from rfl]
    rw [jsSplitWsL_trimL s.data, if_pos h]
    have hws : wsTokens s.data = [] :=
      (wsTokens_eq_nil_iff s.data).mpr ((trimL_eq_nil_iff s.data).mp h)
    rw [hws]
    rfl
  · rw [show (String.mk (trimL s.data)).data = trimL s.data from rfl]
    rw [jsSplitWsL_trimL s.data, if_neg h]
    show ({ command := (List.map String.mk (wsTokens s.data)).headD ""
            args := some (List.map String.mk (wsTokens s.data)).tail
            cwd := none } : CommandMessage) = _
    rw [headD_map_mk, tail_map_mk]

/-! ### Helper lemmas: path splitting and the legacy regex -/

theorem splitChar_ne_nil (sep : Char) (l : List Char) : splitChar sep l ≠ [] := by
  induction l with
  | nil => simp [splitChar]
  | cons c cs ih =>
    rw [splitChar.eq_def]
    by_cases hc : c = sep
    · simp [hc]
    · cases he : splitChar sep cs with
      | nil => exact absurd he ih
      | cons t ts => simp [hc, he]

theorem modifyHead_append_of_ne_nil {α : Type} (f : α → α) (x y : List α) (hx : x ≠ []) :
    (x ++ y).modifyHead f = x.modifyHead f ++ y := by
  cases x with
  | nil => exact absurd rfl hx
  | cons a as => simp

theorem splitChar_append (sep : Char) (a b : List Char) :
    splitChar sep (a ++ sep :: b) = splitChar sep a ++ splitChar sep b := by
  induction a with
  | nil =>
    rw [List.nil_append, splitChar.eq_def]
    simp [splitChar]
  | cons x a' ih =>
    rw [List.cons_append]
    by_cases hx : x = sep
    · rw [splitChar.eq_def]
      simp only [hx, if_true]
      rw [ih]
      rw [show splitChar sep (sep :: a') = [] :: splitChar sep a' by
        rw [splitChar.eq_def]; simp]
      rfl
    · rw [splitChar.eq_def]
      simp only [hx, if_false]
      rw [ih]
      rw [show splitChar sep (x :: a') = (splitChar sep a').modifyHead (x :: ·) by
        rw [splitChar.eq_def]; simp [hx]]
      exact modifyHead_append_of_ne_nil _ _ _ (splitChar_ne_nil sep a')

theorem getLastD_append_of_ne_nil {α : Type} (A B : List α) (d : α) (hB : B ≠ []) :
    (A ++ B).getLastD d = B.getLastD d := by
  rw [List.getLastD_eq_getLast?, List.getLastD_eq_getLast?, List.getLast?_append]
  cases hb : B.getLast? with
  | none =>
    rw [List.getLast?_eq_none_iff] at hb
    exact absurd hb hB
  | some y => rfl

theorem matchCommandEqL_cons (c : Char) (cs : List Char) :
    matchCommandEqL (c :: cs) =
      if leadsWith cmdEqPat (c :: cs) then
        if (((c :: cs).drop cmdEqPat.length).takeWhile (fun x => x != ']')).isEmpty then
          matchCommandEqL cs
        else some (((c :: cs).drop cmdEqPat.length).takeWhile (fun x => x != ']'))
      else matchCommandEqL cs := by
  rw [matchCommandEqL.eq_def]

theorem specCaptureAmended_cons (c : Char) (cs : List Char) :
    specCaptureAmended (c :: cs) =
      if leadsWith cmdEqPat (c :: cs) &&
          !(((c :: cs).drop cmdEqPat.length).takeWhile (fun x => x != ']')).isEmpty then
        some (((c :: cs).drop cmdEqPat.length).takeWhile (fun x => x != ']'))
      else specCaptureAmended cs := by
  rw [specCaptureAmended.eq_def]

theorem matchCommandEqL_no_rbracket {l cap : List Char}
    (h : matchCommandEqL l = some cap) : ∀ c ∈ cap, c ≠ ']' := by
  induction l with
  | nil => simp [matchCommandEqL] at h
  | cons c cs ih =>
    rw [matchCommandEqL_cons] at h
    by_cases hl : leadsWith cmdEqPat (c :: cs)
    · rw [if_pos hl] at h
      by_cases he : (((c :: cs).drop cmdEqPat.length).takeWhile (fun x => x != ']')).isEmpty
      · rw [if_pos he] at h
        exact ih h
      · rw [if_neg he] at h
        have hcap : ((c :: cs).drop cmdEqPat.length).takeWhile (fun x => x != ']') = cap :=
          Option.some.inj h
        intro x hx
        rw [← hcap] at hx
        have := List.mem_takeWhile_imp hx
        simpa using this
    · rw [if_neg hl] at h
      exact ih h

theorem matchCommandEqL_eq_specAmended (l : List Char) :
    matchCommandEqL l = specCaptureAmended l := by
  induction l with
  | nil => rfl
  | cons c cs ih =>
    rw [matchCommandEqL_cons, specCaptureAmended_cons]
    by_cases hl : leadsWith cmdEqPat (c :: cs)
    · by_cases he : (((c :: cs).drop cmdEqPat.length).takeWhile (fun x => x != ']')).isEmpty
      · rw [if_pos hl, if_pos he, if_neg (by simp [hl, he])]
        exact ih
      · rw [if_pos hl, if_neg he, if_pos (by simp [hl, he])]
    · rw [if_neg hl, if_neg (by simp [hl])]
      exact ih

theorem stripTrailingRBracket_eq_self {s : String} (h : ∀ c ∈ s.data, c ≠ ']') :
    stripTrailingRBracket s = s := by
  unfold stripTrailingRBracket
  cases hl : s.data.getLast? with
  | none => rfl
  | some c =>
    have hne : s.data ≠ [] := by
      intro h0
      rw [h0] at hl
      simp at hl
    have h2 := List.getLast?_eq_getLast s.data hne
    rw [hl] at h2
    have hcl : c = s.data.getLast hne := Option.some.inj h2
    have hc : c ∈ s.data := by
      rw [hcl]
      exact List.getLast_mem hne
    simp [h c hc]

theorem mem_trimL {l : List Char} {c : Char} (hc : c ∈ trimL l) : c ∈ l := by
  unfold trimL at hc
  have h1 := (List.rdropWhile_prefix Char.isWhitespace
    (l.dropWhile Char.isWhitespace)).subset hc
  exact (List.dropWhile_suffix Char.isWhitespace).subset h1

/-! ### Trace helper lemmas -/

theorem mem_sendResponse {env : SqsEnv} {cid : String} {result : ExecResult} {e : Effect}
    (he : e ∈ sendResponse env cid result) :
    e = Effect.publish (encodeResponse cid result) := by
  unfold sendResponse at he
  split_ifs at he
  · simp at he
  · simp at he
  · simpa using he

theorem executeCommand_snd (cmd : CommandMessage) (outcome : SpawnOutcome) :
    (executeCommand cmd outcome).2 =
      [Effect.spawn ((jsWsSplit (jsTrim cmd.command)).headD "")
        (match cmd.args with
          | some a => a
          | none => (jsWsSplit (jsTrim cmd.command)).tail)
        cmd.cwd] := by
  cases outcome <;> rfl

theorem sendResponse_eq_nil_or (env : SqsEnv) (cid : String) (result : ExecResult) :
    sendResponse env cid result = [] ∨
      sendResponse env cid result = [Effect.publish (encodeResponse cid result)] := by
  unfold sendResponse
  split_ifs <;> simp

/-! ### Claim theorems -/

/-- C1: for every received message whose parsed command fails the allowlist
check, processing never records a spawn effect, and every response published
for it has `success = false`, `exitCode = 1`, and a stderr naming the
rejected command. -/
theorem c1_rejected_never_spawns (env : SqsEnv) (decoded : Option JsonTop)
    (msg : SqsMessage) (outcome : SpawnOutcome) (cmd : CommandMessage)
    (hp : parseMessage decoded msg.body = some cmd)
    (hr : isCommandAllowed cmd.command = false) :
    (∀ e ∈ processMessage env decoded msg outcome, isSpawnEffect e = false) ∧
      (∀ b : ResponseBody, Effect.publish b ∈ processMessage env decoded msg outcome →
        b.success = false ∧ b.exitCode = 1 ∧
          b.stderr = "Command \"" ++ cmd.command ++ "\" is not in the allowlist") := by
  have key : processMessage env decoded msg outcome =
      (if jsOrS msg.correlationAttr (jsOrS msg.messageId "") ≠ "" then
        sendResponse env (jsOrS msg.correlationAttr (jsOrS msg.messageId ""))
          { success := false
            output := ""
            error := some ("Command \"" ++ cmd.command ++ "\" is not in the allowlist")
            exitCode := 1 }
      else []) ++
      (if msg.receiptHandle ≠ "" then [Effect.deleteMessage msg.receiptHandle] else []) := by
    simp [processMessage, hp, hr]
  rw [key]
  constructor
  · intro e he
    rcases List.mem_append.mp he with h1 | h2
    · split_ifs at h1
      · rw [mem_sendResponse h1]
        rfl
      · simp at h1
    · split_ifs at h2
      · have he2 : e = Effect.deleteMessage msg.receiptHandle := by simpa using h2
        rw [he2]
        rfl
      · simp at h2
  · intro b hb
    rcases List.mem_append.mp hb with h1 | h2
    · split_ifs at h1
      · have hpe := mem_sendResponse h1
        have hbeq : b = encodeResponse (jsOrS msg.correlationAttr (jsOrS msg.messageId ""))
            { success := false
              output := ""
              error := some ("Command \"" ++ cmd.command ++ "\" is not in the allowlist")
              exitCode := 1 } := by
          simpa using hpe
        rw [hbeq]
        exact ⟨rfl, rfl, rfl⟩
      · simp at h1
    · split_ifs at h2
      · simp at h2
      · simp at h2

/-- C1 witness: a rejected `rm -rf /` object message spawns nothing and its
published response is the failure response. -/
theorem c1_witness :
    isSpawnEffect (Effect.publish ⟨"cid", false, "", "Command \"rm\" is not in the allowlist", 1⟩) = false ∧
      ((⟨"cid", false, "", "Command \"rm\" is not in the allowlist", 1⟩ : ResponseBody).success = false ∧
        (⟨"cid", false, "", "Command \"rm\" is not in the allowlist", 1⟩ : ResponseBody).exitCode = 1 ∧
        (⟨"cid", false, "", "Command \"rm\" is not in the allowlist", 1⟩ : ResponseBody).stderr =
          "Command \"rm\" is not in the allowlist") := by
  have h := c1_rejected_never_spawns ⟨"resp", "url", true⟩
    (some (JsonTop.jobject (some "rm") (some ["-rf", "/"]) none))
    ⟨"b", "rh", "cid", "mid"⟩ (SpawnOutcome.completed 0 "" "")
    ⟨"rm", some ["-rf", "/"], none⟩ (by decide) (by decide)
  have h2 := h.2 ⟨"cid", false, "", "Command \"rm\" is not in the allowlist", 1⟩ (by decide)
  exact ⟨h.1 (Effect.publish ⟨"cid", false, "", "Command \"rm\" is not in the allowlist", 1⟩)
    (by decide), h2.1, h2.2.1, by decide⟩

/-- C3: every message that parses (whether its command is then allowed or
rejected, and whatever the execution outcome) is acknowledged exactly once,
and the delete is the final effect — in particular it comes after the
response publication attempt. -/
theorem c3_ack_exactly_once (env : SqsEnv) (decoded : Option JsonTop)
    (msg : SqsMessage) (outcome : SpawnOutcome) (cmd : CommandMessage)
    (hp : parseMessage decoded msg.body = some cmd)
    (hrh : msg.receiptHandle ≠ "") :
    (processMessage env decoded msg outcome).countP isAckEffect = 1 ∧
      (processMessage env decoded msg outcome).getLast? =
        some (Effect.deleteMessage msg.receiptHandle) := by
  by_cases hallow : isCommandAllowed cmd.command = false
  · by_cases hcid : jsOrS msg.correlationAttr (jsOrS msg.messageId "") ≠ ""
    · rcases sendResponse_eq_nil_or env (jsOrS msg.correlationAttr (jsOrS msg.messageId ""))
        { success := false
          output := ""
          error := some ("Command \"" ++ cmd.command ++ "\" is not in the allowlist")
          exitCode := 1 } with hs | hs <;>
        simp [processMessage, hp, hallow, hcid, hrh, hs, isAckEffect,
          List.countP_cons, List.countP_nil]
    · have hcid' : jsOrS msg.correlationAttr (jsOrS msg.messageId "") = "" := not_ne_iff.mp hcid
      simp [processMessage, hp, hallow, hcid', hrh, isAckEffect,
        List.countP_cons, List.countP_nil]
  · have hallow' : isCommandAllowed cmd.command = true := by simpa using hallow
    by_cases hcid : jsOrS msg.correlationAttr (jsOrS msg.messageId "") ≠ ""
    · rcases sendResponse_eq_nil_or env (jsOrS msg.correlationAttr (jsOrS msg.messageId ""))
        (executeCommand cmd outcome).1 with hs | hs <;>
        simp [processMessage, hp, hallow', hcid, hrh, hs, executeCommand_snd, isAckEffect,
          List.countP_cons, List.countP_nil]
    · have hcid' : jsOrS msg.correlationAttr (jsOrS msg.messageId "") = "" := not_ne_iff.mp hcid
      simp [processMessage, hp, hallow', hcid', hrh, executeCommand_snd, isAckEffect,
        List.countP_cons, List.countP_nil]

/-- C3 witness: an allowed `echo hi` run is acknowledged exactly once, as the
final effect. -/
theorem c3_witness :
    (processMessage ⟨"resp", "url", true⟩ (some (JsonTop.jstring "echo hi"))
        ⟨"\"echo hi\"", "rh", "cid", ""⟩ (SpawnOutcome.completed 0 "hi\n" "")).countP
        isAckEffect = 1 ∧
      (processMessage ⟨"resp", "url", true⟩ (some (JsonTop.jstring "echo hi"))
        ⟨"\"echo hi\"", "rh", "cid", ""⟩ (SpawnOutcome.completed 0 "hi\n" "")).getLast? =
        some (Effect.deleteMessage "rh") :=
  c3_ack_exactly_once ⟨"resp", "url", true⟩ (some (JsonTop.jstring "echo hi"))
    ⟨"\"echo hi\"", "rh", "cid", ""⟩ (SpawnOutcome.completed 0 "hi\n" "")
    ⟨"echo", some ["hi"], none⟩ (by decide) (by decide)

/-- C6: the execution result's `success` is `true` iff the process exit code
is zero (and `exitCode` reports that code); a throwing spawn is caught and
converted to `{success := false, output := "", error := some message,
exitCode := 1}` instead of propagating as an exception (the embedding is a
total function, so no exceptional path exists). -/
theorem c6_success_iff_exit_zero :
    (∀ (cmd : CommandMessage) (code : Int) (out err : String),
      ((executeCommand cmd (SpawnOutcome.completed code out err)).1.success = true ↔ code = 0) ∧
        (executeCommand cmd (SpawnOutcome.completed code out err)).1.exitCode = code) ∧
      (∀ (cmd : CommandMessage) (m : String),
        (executeCommand cmd (SpawnOutcome.spawnError m)).1 =
          { success := false, output := "", error := some m, exitCode := 1 }) := by
  constructor
  · intro cmd code out err
    constructor
    · simp [executeCommand]
    · rfl
  · intro cmd m
    rfl

/-- C7: a message whose body fails to parse produces no effects at all — no
spawn, no response even when a correlation id is present, and no delete, so
the input-queue state is untouched. -/
theorem c7_parse_failure_no_effects (env : SqsEnv) (decoded : Option JsonTop)
    (msg : SqsMessage) (outcome : SpawnOutcome)
    (hp : parseMessage decoded msg.body = none) :
    processMessage env decoded msg outcome = [] := by
  unfold processMessage
  rw [hp]

/-- C7 witness: a numeric JSON body fails to parse and produces an empty
trace despite a present correlation id and receipt handle. -/
theorem c7_witness :
    parseMessage (some JsonTop.jother) "42" = none ∧
      processMessage ⟨"resp", "url", true⟩ (some JsonTop.jother)
        ⟨"42", "rh", "cid", "mid"⟩ (SpawnOutcome.completed 0 "" "") = [] :=
  ⟨by decide, c7_parse_failure_no_effects ⟨"resp", "url", true⟩ (some JsonTop.jother)
    ⟨"42", "rh", "cid", "mid"⟩ (SpawnOutcome.completed 0 "" "") (by decide)⟩

/-- C10: for a descriptor whose command string contains whitespace, the
executor re-tokenizes the command string and passes only its first
whitespace-separated token to `Bun.spawn` as the program; the remaining
tokens form the argument vector only when the descriptor's `args` is absent
and are discarded when explicit `args` are given — so the spawned program
can differ from the command string the allowlist gate inspected. -/
theorem c10_executor_retokenizes (cmd : CommandMessage) (outcome : SpawnOutcome)
    (hws : cmd.command.data.any Char.isWhitespace = true) :
    (executeCommand cmd outcome).2 =
      [Effect.spawn (String.mk ((wsTokens cmd.command.data).headD []))
        (match cmd.args with
          | some a => a
          | none => (wsTokens cmd.command.data).tail.map String.mk)
        cmd.cwd] := by
  have hcmd := strTokenize_eq_spec cmd.command
  have h1 : (jsWsSplit (jsTrim cmd.command)).headD "" =
      String.mk ((wsTokens cmd.command.data).headD []) :=
    congrArg CommandMessage.command hcmd
  have h2 : (jsWsSplit (jsTrim cmd.command)).tail =
      (wsTokens cmd.command.data).tail.map String.mk := by
    have := congrArg CommandMessage.args hcmd
    simpa [strTokenize, specTokenizeCmd] using this
  rw [List.headD_eq_head?_getD, List.headD_eq_head?_getD] at h1
  unfold executeCommand
  cases outcome with
  | completed code out err =>
    cases ha : cmd.args with
    | some a => simp [h1, ha]
    | none => simp [h1, h2, ha]
  | spawnError m =>
    cases ha : cmd.args with
    | some a => simp [h1, ha]
    | none => simp [h1, h2, ha]

/-- C10 witness: descriptor `{command := "git push", args := ["--force"]}`
spawns program `git` — not the gated string `git push` — with the explicit
args, discarding the `push` token. -/
theorem c10_witness :
    ("git push".data.any Char.isWhitespace = true) ∧
      (executeCommand ⟨"git push", some ["--force"], none⟩
        (SpawnOutcome.completed 0 "" "")).2 = [Effect.spawn "git" ["--force"] none] ∧
      "git" ≠ "git push" := by
  refine ⟨by decide, ?_, by decide⟩
  rw [c10_executor_retokenizes ⟨"git push", some ["--force"], none⟩
    (SpawnOutcome.completed 0 "" "") (by decide)]
  decide

theorem getLastD_map_mk (L : List (List Char)) :
    (L.map String.mk).getLastD "" = String.mk (L.getLastD []) := by
  rw [List.getLastD_eq_getLast?, List.getLastD_eq_getLast?, List.getLast?_map]
  cases L.getLast? <;> rfl

theorem mk_eq_empty_iff (l : List Char) : String.mk l = "" ↔ l = [] := by
  constructor
  · intro h
    exact congrArg String.data h
  · intro h
    rw [h]

theorem firstTok_bridge (s : String) :
    (jsWsSplit (jsTrim s)).headD "" = String.mk ((wsTokens s.data).headD []) :=
  congrArg CommandMessage.command (strTokenize_eq_spec s)

theorem wsTokens_mem_ne_nil {l : List Char} {q : List Char} (hq : q ∈ wsTokens l) :
    q ≠ [] := by
  unfold wsTokens at hq
  have := (List.mem_filter.mp hq).2
  simpa using this

/-- C2 counterexample: for the command string `git x/` (whose last
`/`-separated segment is empty) the code falls back to the whole string via
JS `||` and allows it, while the claimed formula — membership of the first
token of the last `/`-separated segment — rejects it. -/
theorem c2_counterexample :
    isCommandAllowed "git x/" = true ∧ specIsAllowedClaim "git x/" = false := by
  decide

/-- C2 amended: `isAllowed` equals membership of the first
whitespace-separated token of the last `/`-separated segment, except that
when that segment is empty (the command ends in `/`) the whole command
string is tokenized instead; prepending a path prefix `p ++ "/"` preserves
the decision whenever the last segment is non-empty.  (`isCommandAllowed`
is a total Lean function, so it never raises.) -/
theorem c2_amended_allowlist :
    (∀ c : String, isCommandAllowed c = specIsAllowedAmended c) ∧
      (∀ p c : String, (splitChar '/' c.data).getLastD [] ≠ [] →
        isCommandAllowed (p ++ "/" ++ c) = isCommandAllowed c) := by
  constructor
  · intro c
    simp only [isCommandAllowed, specIsAllowedAmended, splitSlash, jsOrS, getLastD_map_mk]
    by_cases hseg : (splitChar '/' c.data).getLastD [] = []
    · rw [hseg]
      rw [if_pos (show String.mk [] = "" from rfl)]
      simp only [List.isEmpty_nil, if_true]
      rw [firstTok_bridge]
    · have hseg' : String.mk ((splitChar '/' c.data).getLastD []) ≠ "" :=
        fun h0 => hseg ((mk_eq_empty_iff _).mp h0)
      rw [if_neg hseg']
      have hempty : ((splitChar '/' c.data).getLastD []).isEmpty = false := by
        cases hq : (splitChar '/' c.data).getLastD [] with
        | nil => exact absurd hq hseg
        | cons y ys => rfl
      rw [hempty]
      simp only [Bool.false_eq_true, if_false]
      rw [firstTok_bridge]
  · intro p c hseg
    have hdata : (p ++ "/" ++ c).data = p.data ++ '/' :: c.data := by
      rw [String.data_append, String.data_append, List.append_assoc]
      rfl
    have hlast : (splitChar '/' ((p ++ "/" ++ c).data)).getLastD [] =
        (splitChar '/' c.data).getLastD [] := by
      rw [hdata, splitChar_append '/' p.data c.data]
      exact getLastD_append_of_ne_nil _ _ _ (splitChar_ne_nil '/' c.data)
    simp only [isCommandAllowed, splitSlash, jsOrS, getLastD_map_mk, hlast]
    have hne : String.mk ((splitChar '/' c.data).getLastD []) ≠ "" :=
      fun h0 => hseg ((mk_eq_empty_iff _).mp h0)
    rw [if_neg hne, if_neg hne]

/-- C2 witness: the amended equivalence at `/usr/bin/git`, and prefix
invariance at `usr` / `git status`. -/
theorem c2_witness :
    isCommandAllowed "/usr/bin/git" = specIsAllowedAmended "/usr/bin/git" ∧
      isCommandAllowed ("usr" ++ "/" ++ "git status") = isCommandAllowed "git status" :=
  ⟨c2_amended_allowlist.1 "/usr/bin/git",
    c2_amended_allowlist.2 "usr" "git status" (by decide)⟩

/-- C4: a body that JSON-decodes to a string with at least one token parses
to the first whitespace-separated token as `command`, the remaining tokens
in order as `args`, and no working directory. -/
theorem c4_json_string_parse (s : String) (body : String)
    (htok : wsTokens s.data ≠ []) :
    parseMessage (some (JsonTop.jstring s)) body =
      some { command := String.mk ((wsTokens s.data).headD [])
             args := some ((wsTokens s.data).tail.map String.mk)
             cwd := none } := by
  show some (strTokenize s) = _
  rw [strTokenize_eq_spec s]
  rfl

/-- C4 witness: `"ls -la"` parses to `{command := "ls", args := ["-la"]}`. -/
theorem c4_witness :
    wsTokens "ls -la".data ≠ [] ∧
      parseMessage (some (JsonTop.jstring "ls -la")) "\"ls -la\"" =
        some { command := "ls", args := some ["-la"], cwd := none } := by
  refine ⟨by decide, ?_⟩
  rw [c4_json_string_parse "ls -la" "\"ls -la\"" (by decide)]
  decide

/-- C5 counterexample: the body `command=]` contains the literal `command=`,
so the claim as stated prescribes parsing the (empty) capture, yielding an
empty command — but the regex `command=([^\]]+)` requires at least one
non-`]` character, so the code falls through to whole-body tokenization and
returns `command=]` itself as the command. -/
theorem c5_counterexample :
    specParseFallbackClaim "command=]" =
        some { command := "", args := some [], cwd := none } ∧
      parseMessage none "command=]" =
        some { command := "command=]", args := some [], cwd := none } := by
  constructor
  · decide
  · decide

/-- C5 amended: for every body on which JSON decoding fails, the fallback
parse equals the claimed behaviour once a `command=` occurrence only counts
when followed by at least one non-`]` character: blank bodies fail; with a
counting occurrence, the text after it up to the first `]` is tokenized;
otherwise the whole body is tokenized. -/
theorem c5_amended_fallback (body : String) :
    parseMessage none body = specParseFallbackAmended body := by
  show parseFallback body = specParseFallbackAmended body
  by_cases hws : ∀ c ∈ body.data, c.isWhitespace = true
  · have htrim : trimL body.data = [] := (trimL_eq_nil_iff body.data).mpr hws
    have hguard : ¬(jsTrim body).length > 0 := by
      unfold jsTrim
      rw [htrim]
      decide
    have hall : body.data.all Char.isWhitespace = true := List.all_eq_true.mpr hws
    unfold parseFallback specParseFallbackAmended
    rw [if_neg hguard, if_pos hall]
  · have hne : trimL body.data ≠ [] :=
      fun h0 => hws ((trimL_eq_nil_iff body.data).mp h0)
    have hguard : (jsTrim body).length > 0 := by
      unfold jsTrim
      cases htr : trimL body.data with
      | nil => exact absurd htr hne
      | cons y ys => simp [String.length]
    have hall : ¬body.data.all Char.isWhitespace = true :=
      fun ht => hws (List.all_eq_true.mp ht)
    unfold parseFallback specParseFallbackAmended
    rw [if_pos hguard, if_neg hall]
    rw [show matchCommandEq body = (matchCommandEqL body.data).map String.mk from rfl]
    rw [matchCommandEqL_eq_specAmended body.data]
    cases hm : specCaptureAmended body.data with
    | none =>
      simp only [Option.map_none']
      rw [strTokenize_eq_spec body]
    | some cap =>
      simp only [Option.map_some']
      have hnr : ∀ x ∈ cap, x ≠ ']' := by
        apply matchCommandEqL_no_rbracket
        rw [matchCommandEqL_eq_specAmended body.data]
        exact hm
      have hstrip : stripTrailingRBracket (jsTrim (String.mk cap)) = jsTrim (String.mk cap) :=
        stripTrailingRBracket_eq_self (fun x hx => hnr x (mem_trimL hx))
      rw [hstrip]
      show some (strTokenize (String.mk cap)) = _
      rw [strTokenize_eq_spec (String.mk cap)]

/-- C8 counterexample: the body `""` (a JSON string literal of the empty
string) parses successfully, with an empty `command`. -/
theorem c8_counterexample :
    parseMessage (some (JsonTop.jstring "")) "\"\"" =
      some { command := "", args := some [], cwd := none } := by
  decide

theorem parseFallback_empty_command {body : String} {cmd : CommandMessage}
    (hp : parseFallback body = some cmd) (hemp : cmd.command = "") :
    ∃ cap, matchCommandEqL body.data = some cap ∧ ∀ c ∈ cap, c.isWhitespace := by
  unfold parseFallback at hp
  by_cases hguard : (jsTrim body).length > 0
  · rw [if_pos hguard] at hp
    rw [show matchCommandEq body = (matchCommandEqL body.data).map String.mk from rfl] at hp
    cases hm : matchCommandEqL body.data with
    | none =>
      rw [hm] at hp
      simp only [Option.map_none'] at hp
      have hcmd := Option.some.inj hp
      rw [← hcmd] at hemp
      have hemp' : (specTokenizeCmd body.data).command = "" := by
        rw [← strTokenize_eq_spec body]
        exact hemp
      have hhead : (wsTokens body.data).headD [] = [] := congrArg String.data hemp'
      cases hw : wsTokens body.data with
      | nil =>
        have hallws := (wsTokens_eq_nil_iff body.data).mp hw
        have htr : trimL body.data = [] := (trimL_eq_nil_iff body.data).mpr hallws
        unfold jsTrim at hguard
        rw [htr] at hguard
        simp [String.length] at hguard
      | cons t ts =>
        rw [hw] at hhead
        simp only [List.headD_cons] at hhead
        exact absurd hhead (wsTokens_mem_ne_nil (hw ▸ List.mem_cons_self t ts))
    | some cap =>
      rw [hm] at hp
      simp only [Option.map_some'] at hp
      refine ⟨cap, rfl, ?_⟩
      have hnr : ∀ x ∈ cap, x ≠ ']' := matchCommandEqL_no_rbracket hm
      have hstrip : stripTrailingRBracket (jsTrim (String.mk cap)) = jsTrim (String.mk cap) :=
        stripTrailingRBracket_eq_self (fun x hx => hnr x (mem_trimL hx))
      rw [hstrip] at hp
      have hcmd := Option.some.inj hp
      rw [← hcmd] at hemp
      have hemp' : (specTokenizeCmd cap).command = "" := by
        show (specTokenizeCmd (String.mk cap).data).command = ""
        rw [← strTokenize_eq_spec (String.mk cap)]
        exact hemp
      have hhead : (wsTokens cap).headD [] = [] := congrArg String.data hemp'
      cases hw : wsTokens cap with
      | nil => exact (wsTokens_eq_nil_iff cap).mp hw
      | cons t ts =>
        rw [hw] at hhead
        simp only [List.headD_cons] at hhead
        exact absurd hhead (wsTokens_mem_ne_nil (hw ▸ List.mem_cons_self t ts))
  · rw [if_neg hguard] at hp
    exact absurd hp (by simp)

/-- C8 amended: a successfully parsed descriptor has a non-empty `command`
except on exactly two paths — a whitespace-only JSON string payload, and a
whitespace-only `command=` capture in the legacy fallback — which yield an
empty `command`. -/
theorem c8_amended_nonempty (decoded : Option JsonTop) (body : String)
    (cmd : CommandMessage) (hp : parseMessage decoded body = some cmd)
    (hemp : cmd.command = "") :
    (∃ s, decoded = some (JsonTop.jstring s) ∧ ∀ c ∈ s.data, c.isWhitespace) ∨
      ((decoded = none ∨ decoded = some JsonTop.jnull) ∧
        ∃ cap, matchCommandEqL body.data = some cap ∧ ∀ c ∈ cap, c.isWhitespace) := by
  cases decoded with
  | none =>
    exact Or.inr ⟨Or.inl rfl, parseFallback_empty_command hp hemp⟩
  | some j =>
    cases j with
    | jstring s =>
      refine Or.inl ⟨s, rfl, ?_⟩
      have hcmd := Option.some.inj hp
      rw [← hcmd] at hemp
      have hemp' : (specTokenizeCmd s.data).command = "" := by
        rw [← strTokenize_eq_spec s]
        exact hemp
      have hhead : (wsTokens s.data).headD [] = [] := congrArg String.data hemp'
      cases hw : wsTokens s.data with
      | nil => exact (wsTokens_eq_nil_iff s.data).mp hw
      | cons t ts =>
        rw [hw] at hhead
        simp only [List.headD_cons] at hhead
        exact absurd hhead (wsTokens_mem_ne_nil (hw ▸ List.mem_cons_self t ts))
    | jobject cf af wf =>
      cases cf with
      | none => exact absurd hp (by simp [parseMessage])
      | some c0 =>
        by_cases hc0 : c0 = ""
        · rw [hc0] at hp
          simp [parseMessage] at hp
        · have hred : parseMessage (some (JsonTop.jobject (some c0) af wf)) body =
              some { command := c0, args := some (af.getD []), cwd := wf } := by
            simp [parseMessage, hc0]
          rw [hred] at hp
          have hcmd := Option.some.inj hp
          rw [← hcmd] at hemp
          exact absurd hemp hc0
    | jnull =>
      exact Or.inr ⟨Or.inr rfl, parseFallback_empty_command hp hemp⟩
    | jother => exact absurd hp (by simp [parseMessage])

/-- C8 witness: the whitespace-only JSON string payload `" "` parses with an
empty command, landing in the allowed exception. -/
theorem c8_witness :
    (∃ s, (some (JsonTop.jstring " ") : Option JsonTop) = some (JsonTop.jstring s) ∧
        ∀ c ∈ s.data, c.isWhitespace) ∨
      (((some (JsonTop.jstring " ") : Option JsonTop) = none ∨
          (some (JsonTop.jstring " ") : Option JsonTop) = some JsonTop.jnull) ∧
        ∃ cap, matchCommandEqL "\" \"".data = some cap ∧ ∀ c ∈ cap, c.isWhitespace) :=
  c8_amended_nonempty (some (JsonTop.jstring " ")) "\" \""
    { command := "", args := some [], cwd := none } (by decide) rfl

/-- C9 counterexample: serialization into the response body is not injective
on the result's stderr — an absent stderr and a present-but-empty stderr
produce identical response bodies (`stderr: ""`), so no consumer can recover
`stderr` identically for every `ExecutionResult`. -/
theorem c9_counterexample :
    encodeResponse "cid" { success := false, output := "", error := none, exitCode := 1 } =
        encodeResponse "cid" { success := false, output := "", error := some "", exitCode := 1 } ∧
      ({ success := false, output := "", error := none, exitCode := 1 } : ExecResult) ≠
        { success := false, output := "", error := some "", exitCode := 1 } := by
  constructor
  · rfl
  · decide

/-- C9 amended: the round trip through the response body always recovers
`success`, `exitCode` and `stdout`, and recovers the full result (including
stderr) whenever the original stderr is not the present-but-empty string
`some ""` — that one value is collapsed to an absent stderr by the wire
format. -/
theorem c9_roundtrip (cid : String) (r : ExecResult) :
    (decodeResponse (encodeResponse cid r)).success = r.success ∧
      (decodeResponse (encodeResponse cid r)).exitCode = r.exitCode ∧
      (decodeResponse (encodeResponse cid r)).output = r.output ∧
      (r.error ≠ some "" → decodeResponse (encodeResponse cid r) = r) := by
  obtain ⟨s, o, e, c⟩ := r
  refine ⟨rfl, rfl, rfl, ?_⟩
  intro hne
  cases e with
  | none => simp [encodeResponse, decodeResponse]
  | some msg =>
    have hmsg : msg ≠ "" := fun h0 => hne (by rw [h0])
    simp [encodeResponse, decodeResponse, hmsg]

/-- C9 witness: a result with non-empty stderr round-trips exactly. -/
theorem c9_witness :
    ({ success := true, output := "out", error := some "err", exitCode := 0 } : ExecResult).error ≠
        some "" ∧
      decodeResponse (encodeResponse "cid"
          { success := true, output := "out", error := some "err", exitCode := 0 }) =
        { success := true, output := "out", error := some "err", exitCode := 0 } :=
  ⟨by decide,
    (c9_roundtrip "cid" { success := true, output := "out", error := some "err", exitCode := 0 }).2.2.2
      (by decide)⟩
